import Mathlib

/-!
Verification of the pagurl Obsidian plugin (src/main.ts) against its
natural-language specification.  The TypeScript source is shallowly
embedded: strings are `String`/`List Char`, the host editor, vault,
metadata cache, `moment` and `new URL` are explicit parameters, and the
JavaScript string/regex primitives used by the code
(`String.prototype.replace`, `String.prototype.trim`, the one Markdown-link
regex) are modelled character by character.
-/

deriving instance DecidableEq for Except

namespace Pagurl

/-- The JavaScript `\s` character class (also the set trimmed by
`String.prototype.trim`): ASCII whitespace, NBSP, the Unicode space
separators, line/paragraph separators and the BOM. -/
def isJsSpace (c : Char) : Bool :=
  c == ' ' || c.toNat == 9 || c.toNat == 10 || c.toNat == 11 || c.toNat == 12 ||
  c.toNat == 13 || c.toNat == 0xa0 || c.toNat == 0x1680 ||
  (0x2000 ≤ c.toNat && c.toNat ≤ 0x200a) || c.toNat == 0x2028 ||
  c.toNat == 0x2029 || c.toNat == 0x202f || c.toNat == 0x205f ||
  c.toNat == 0x3000 || c.toNat == 0xfeff

/-- JavaScript `String.prototype.trim`: strip `isJsSpace` characters from
both ends. -/
def jsTrim (l : List Char) : List Char :=
  ((l.dropWhile isJsSpace).reverse.dropWhile isJsSpace).reverse

/-- Characters admitted by the `[^\s>]` class in the source regex. -/
def isUrlChar (c : Char) : Bool :=
  !(isJsSpace c) && !(c == '>')

/-- Case-insensitive comparison against one letter (the `/i` flag of the
source regex, which only affects the `https` letters). -/
def ciEq (c lo hi : Char) : Bool :=
  c == lo || c == hi

/-- Recognise the `https?:\/\/` part of the regex (case-insensitively,
greedy optional `s`), returning the consumed characters and the rest. -/
def parseScheme : List Char → Option (List Char × List Char)
  | c1 :: c2 :: c3 :: c4 :: rest =>
    if ciEq c1 'h' 'H' && ciEq c2 't' 'T' && ciEq c3 't' 'T' && ciEq c4 'p' 'P' then
      match rest with
      | c5 :: ':' :: '/' :: '/' :: r =>
        if ciEq c5 's' 'S' then some ([c1, c2, c3, c4, c5, ':', '/', '/'], r)
        else match rest with
          | ':' :: '/' :: '/' :: r2 => some ([c1, c2, c3, c4, ':', '/', '/'], r2)
          | _ => none
      | ':' :: '/' :: '/' :: r2 => some ([c1, c2, c3, c4, ':', '/', '/'], r2)
      | _ => none
    else none
  | _ => none

/-- Match the closing `>?\s*\)` part of the regex at the given position,
returning the consumed characters and the rest. -/
def tryClose (s : List Char) : Option (List Char × List Char) :=
  match s with
  | '>' :: s1 =>
    (match s1.dropWhile isJsSpace with
     | ')' :: r => some ('>' :: (s1.takeWhile isJsSpace ++ [')']), r)
     | _ => none)
  | _ =>
    (match s.dropWhile isJsSpace with
     | ')' :: r => some (s.takeWhile isJsSpace ++ [')'], r)
     | _ => none)

/-- Greedy backtracking for `[^\s>]+>?\s*\)`: `revTaken` is the reversed
prefix of the maximal `[^\s>]` run still held by the `+`, `rest` the text
after it.  The longest split whose continuation closes wins; the run may
not become empty. -/
def urlBacktrack : List Char → List Char → Option (List Char × List Char × List Char)
  | [], _ => none
  | c :: revT, rest =>
    match tryClose rest with
    | some (close, rest2) => some ((c :: revT).reverse, close, rest2)
    | none => urlBacktrack revT (c :: rest)

/-- The `<?` step of the regex: split off a single optional `<`. -/
def angSplit (s : List Char) : List Char × List Char :=
  match s with
  | '<' :: r => (['<'], r)
  | _ => ([], s)

/-- Attempt the source regex
`\[([^\]]+)\]\(\s*<?(https?:\/\/[^\s>]+)>?\s*\)` (with `/i`) anchored at
the head of `s`.  On success returns
(full match, alias capture, url capture, rest after the match). -/
def matchAt (s : List Char) : Option (List Char × List Char × List Char × List Char) :=
  match s with
  | '[' :: s1 =>
    let a := s1.takeWhile (fun c => !(c == ']'))
    let s2 := s1.dropWhile (fun c => !(c == ']'))
    if a.isEmpty then none else
    match s2 with
    | ']' :: '(' :: s4 =>
      let w1 := s4.takeWhile isJsSpace
      let s5 := s4.dropWhile isJsSpace
      let angp := angSplit s5
      match parseScheme angp.2 with
      | none => none
      | some (sch, s7) =>
        let run := s7.takeWhile isUrlChar
        let s8 := s7.dropWhile isUrlChar
        match urlBacktrack run.reverse s8 with
        | none => none
        | some (taken, close, s9) =>
          some ('[' :: a ++ ']' :: '(' :: (w1 ++ angp.1 ++ sch ++ taken ++ close),
                a, sch ++ taken, s9)
    | _ => none
  | _ => none

/-- JavaScript `text.match(regex)` without `/g`: try each start position
left to right and return the first successful attempt's captures. -/
def findMarkdownLinkList : List Char → Option (List Char × List Char × List Char)
  | [] =>
    (match matchAt [] with
     | some (fm, a, u, _) => some (fm, a, u)
     | none => none)
  | c :: rest =>
    (match matchAt (c :: rest) with
     | some (fm, a, u, _) => some (fm, a, u)
     | none => findMarkdownLinkList rest)

/-- The `ExtractedLink` record of src/main.ts.  The source field `alias`
is rendered `aliasText` because `alias` is reserved in Lean. -/
structure ExtractedLink where
  fullMatch : String
  aliasText : String
  url : String
deriving DecidableEq, Repr

/-- `findMarkdownLink` of src/main.ts: run the regex and trim the two
captures. -/
def findMarkdownLink (text : String) : Option ExtractedLink :=
  match findMarkdownLinkList text.data with
  | some (fm, a, u) => some ⟨String.mk fm, String.mk (jsTrim a), String.mk (jsTrim u)⟩
  | none => none

/-- ECMAScript `GetSubstitution` for a plain-string search value (no
capture groups): in the replacement text `$$` yields `$`, `$&` the matched
text, `$` + backquote the part of the original before the match, `$` +
quote the part after it; everything else is literal. -/
def getSubstitution (matched before after : List Char) : List Char → List Char
  | [] => []
  | [c] => [c]
  | c :: d :: rest =>
    if c == '$' then
      if d == '$' then '$' :: getSubstitution matched before after rest
      else if d == '&' then matched ++ getSubstitution matched before after rest
      else if d == Char.ofNat 96 then before ++ getSubstitution matched before after rest
      else if d == Char.ofNat 39 then after ++ getSubstitution matched before after rest
      else c :: getSubstitution matched before after (d :: rest)
    else c :: getSubstitution matched before after (d :: rest)

/-- Split a list at the first (leftmost) occurrence of `pat`, returning
the parts before and after it. -/
def splitFirst (pat : List Char) : List Char → Option (List Char × List Char)
  | [] => if pat.isEmpty then some ([], []) else none
  | c :: rest =>
    if pat.isPrefixOf (c :: rest) then some ([], (c :: rest).drop pat.length)
    else match splitFirst pat rest with
      | some (p, q) => some (c :: p, q)
      | none => none

/-- JavaScript `s.replace(pat, repl)` with a string pattern: replace the
first occurrence, running the replacement through `getSubstitution`; if
there is no occurrence return `s` unchanged. -/
def jsReplaceFirst (s pat repl : String) : String :=
  match splitFirst pat.data s.data with
  | none => s
  | some (p, q) => String.mk (p ++ getSubstitution pat.data p q repl.data ++ q)

/-- JavaScript `s.replace(/pat/g, repl)` for a literal non-empty pattern:
one left-to-right pass replacing every non-overlapping occurrence, each
through `getSubstitution`.  `fuel` bounds the recursion; it is started at
the length of the scanned text, which every step decreases. -/
def replAllGo (pat repl orig : List Char) : Nat → Nat → List Char → List Char
  | 0, _, cur => cur
  | fuel + 1, pos, cur =>
    if !pat.isEmpty && pat.isPrefixOf cur then
      getSubstitution pat (orig.take pos) (cur.drop pat.length) repl ++
        replAllGo pat repl orig fuel (pos + pat.length) (cur.drop pat.length)
    else
      match cur with
      | [] => []
      | c :: rest => c :: replAllGo pat repl orig fuel (pos + 1) rest

/-- JavaScript global string replacement (see `replAllGo`). -/
def jsReplaceAll (s pat repl : String) : String :=
  String.mk (replAllGo pat.data repl.data s.data s.data.length 0 s.data)

/-- Modelled from the spec: plain literal global substitution ("every
literal occurrence ... substituted by the corresponding values"), with no
`$`-pattern processing.  Used to compare `jsReplaceAll` with the spec's
wording. -/
def litReplAllGo (pat repl : List Char) : Nat → List Char → List Char
  | 0, cur => cur
  | fuel + 1, cur =>
    if !pat.isEmpty && pat.isPrefixOf cur then
      repl ++ litReplAllGo pat repl fuel (cur.drop pat.length)
    else
      match cur with
      | [] => []
      | c :: rest => c :: litReplAllGo pat repl fuel rest

/-- Literal global substitution on strings (see `litReplAllGo`). -/
def litReplaceAll (s pat repl : String) : String :=
  String.mk (litReplAllGo pat.data repl.data s.data.length s.data)

/-- Front matter of a vault note as the metadata cache exposes it: only
the `url` field matters to the code; `none` means the field is absent or
not a string. -/
structure Frontmatter where
  url : Option String
deriving DecidableEq, Repr

/-- A Markdown file of the vault as `getMarkdownFiles` and the metadata
cache expose it: basename (file name without extension), the path of its
parent folder, and its cached front matter (`none` when the cache has no
front-matter block for it). -/
structure VFile where
  basename : String
  parentPath : String
  frontmatter : Option Frontmatter
deriving DecidableEq, Repr

/-- The `nameStrategy` setting. -/
inductive NameStrategy
  | title
  | domainDate
deriving DecidableEq, Repr

/-- The `PagurlSettings` record of src/main.ts. -/
structure PagurlSettings where
  template : String
  vaultWideNoDuplicate : Bool
  nameStrategy : NameStrategy
  folders : List String
deriving DecidableEq, Repr

/-- Result of `findExistingFile`. -/
structure ExistingFileMatch where
  name : String
  folder : String
deriving DecidableEq, Repr

/-- An editor cursor position. -/
structure Cursor where
  line : Nat
  ch : Nat
deriving DecidableEq, Repr

/-- State of the host editor visible to the plugin: the current selection,
the text of the cursor's line, the whole document, and the cursor. -/
structure EditorState where
  selection : String
  lineContent : String
  doc : String
  cursor : Cursor
deriving DecidableEq, Repr

/-- Host `editor.setValue`: replaces the whole document.  The host editor
does not preserve the cursor across a whole-document rewrite, which is
why the source saves and restores it; that is modelled by resetting the
cursor to the origin. -/
def EditorState.setValue (ed : EditorState) (v : String) : EditorState :=
  { ed with doc := v, cursor := ⟨0, 0⟩ }

/-- Host `editor.setCursor`. -/
def EditorState.setCursor (ed : EditorState) (c : Cursor) : EditorState :=
  { ed with cursor := c }

/-- Everything a command invocation reads from the host: the settings, the
vault file index with cached metadata, the editor, the active file's
parent-folder path (`none` = no active file, `some none` = no parent
object, mirroring `activeFile?.parent?.path`), today's date already
formatted `YYYY-MM-DD` by `moment`, and the host WHATWG URL parser as an
oracle from a url string to its hostname (`none` = the `new URL`
constructor throws). -/
structure Env where
  settings : PagurlSettings
  vault : List VFile
  editor : EditorState
  activeFile : Option (Option String)
  today : String
  parseHostname : String → Option String

/-- The character class `[\/\\#%&\{\}\|<>*?$!'":@]` of `sanitizeName`. -/
def isBadFileChar (c : Char) : Bool :=
  c == '/' || c == '\\' || c == '#' || c == '%' || c == '&' || c == '\x7b' ||
  c == '\x7d' || c == '|' || c == '<' || c == '>' || c == '*' || c == '?' ||
  c == '$' || c == '!' || c == Char.ofNat 39 || c == '\x22' || c == ':' ||
  c == '@'

/-- `sanitizeName` of src/main.ts: the global regex replacement of every
character of the class by `-`; a single-character class with a `$`-free
single-character replacement is exactly a character map. -/
def sanitizeName (s : String) : String :=
  String.mk (s.data.map (fun c => if isBadFileChar c then '-' else c))

/-- `generateName` of src/main.ts.  `parseHostname` stands for the host
`new URL(url).hostname` (`none` = the constructor throws), `today` for
`moment().format("YYYY-MM-DD")`. -/
def generateName (strategy : NameStrategy) (parseHostname : String → Option String)
    (today : String) (link : ExtractedLink) : String :=
  let sanitizedAlias := sanitizeName link.aliasText
  if link.url == "" then sanitizedAlias
  else
    match strategy with
    | .domainDate =>
      match parseHostname link.url with
      | some domain => domain ++ "-" ++ today
      | none => sanitizedAlias
    | .title => sanitizedAlias

/-- The literal text `{{alias}}`. -/
def aliasPlaceholder : String := "\x7b\x7balias\x7d\x7d"

/-- The literal text `{{url}}`. -/
def urlPlaceholder : String := "\x7b\x7burl\x7d\x7d"

/-- `generateContent` of src/main.ts: the front-matter block followed by
the template with `{{alias}}` globally replaced and then, in that result,
`{{url}}` globally replaced. -/
def generateContent (template : String) (link : ExtractedLink) : String :=
  let frontmatter := "---\n" ++
    (if link.url == "" then "" else "url: \x22" ++ link.url ++ "\x22\n") ++
    "aliases:\n  - " ++ link.aliasText ++ "\n---\n"
  let content := jsReplaceAll (jsReplaceAll template aliasPlaceholder link.aliasText)
    urlPlaceholder link.url
  frontmatter ++ content

/-- The inner predicate of `findExistingFile`:
`frontmatter && frontmatter?.url === url`. -/
def matchesUrl (f : VFile) (url : String) : Bool :=
  match f.frontmatter with
  | some fm => fm.url == some url
  | none => false

/-- `findExistingFile` of src/main.ts: filter the vault's Markdown files
to the target folder unless `vaultWideNoDuplicate`, then return the first
file whose front-matter `url` equals the candidate. -/
def findExistingFile (settings : PagurlSettings) (vault : List VFile)
    (url folder : String) : Option ExistingFileMatch :=
  match (vault.filter
      (fun f => settings.vaultWideNoDuplicate || f.parentPath == folder)).find?
      (fun f => matchesUrl f url) with
  | some f => some ⟨f.basename, f.parentPath⟩
  | none => none

/-- `createFile` of src/main.ts around the host `vault.create`, which
rejects an occupied path.  Modelled from the spec: "Fails with
`FileAlreadyExists` or equivalent storage error if the path is already
occupied"; the host API itself is not in src/.  On success returns the
created (path, content) pair. -/
def createFile (vault : List VFile) (name content folder : String) :
    Except String (String × String) :=
  if vault.any (fun f => f.parentPath == folder && f.basename == name) then
    .error "File already exists."
  else .ok (folder ++ "/" ++ name ++ ".md", content)

/-- `replaceMarkdownLink` of src/main.ts: save the cursor, replace the
first occurrence of `originalMatch` in the whole document with the wiki
link, write the document back, restore the cursor. -/
def replaceMarkdownLink (ed : EditorState) (originalMatch name aliasText : String) :
    EditorState :=
  let cursor := ed.cursor
  let content := ed.doc
  let newLink := "[[" ++ name ++ "|" ++ (if aliasText == "" then name else aliasText)
    ++ "]]"
  let newContent := jsReplaceFirst content originalMatch newLink
  (ed.setValue newContent).setCursor cursor

/-- `extractMarkdownLink` of src/main.ts: run the regex on the selection
or, when the selection is empty, on the cursor's line. -/
def extractMarkdownLink (ed : EditorState) : Option ExtractedLink :=
  findMarkdownLink (if ed.selection == "" then ed.lineContent else ed.selection)

/-- The link-acquisition prefix of `callback` (before its `try` block):
regex extraction, then the plain-text fallback, then the
`NoValidInput`-style throw. -/
def resolveLink (ed : EditorState) : Except String ExtractedLink :=
  match extractMarkdownLink ed with
  | some link => .ok link
  | none =>
    let selectedText := String.mk (jsTrim ed.selection.data)
    if selectedText == "" then .error "Select a valid text or Markdown link"
    else .ok ⟨selectedText, selectedText, ""⟩

/-- The folder-resolution prefix of `callback`: the special `current`
command reads the active file's parent path, throwing when no file is
open, and `activeFile?.parent?.path || folder` keeps the literal
`current` when the path is missing or empty. -/
def resolveFolder (activeFile : Option (Option String)) (folder : String) :
    Except String String :=
  if folder == "current" then
    match activeFile with
    | none => .error "No active file to determine its folder."
    | some pp =>
      match pp with
      | some p => .ok (if p == "" then folder else p)
      | none => .ok folder
  else .ok folder

/-- The `Notice` text of a successful invocation. -/
def noticeMsg (url : String) (existing : Option ExistingFileMatch)
    (folder name : String) : String :=
  "Pagurl: " ++ url ++ " " ++ (if existing.isSome then "-->" else "==>") ++ " " ++
    (match existing with
     | some ex => if ex.folder == "" then folder else ex.folder
     | none => folder) ++ "/" ++ name

/-- Everything observable about one command invocation: whether an
exception escaped the callback, the notices shown, the files created, and
the final editor state. -/
structure CallbackResult where
  outcome : Except String Unit
  notices : List String
  created : List (String × String)
  editor : EditorState
deriving DecidableEq, Repr

/-- The `try` block of `callback`: duplicate lookup, then name/content
generation and file creation when no duplicate exists, then — when the
(possibly reused) name is truthy — text replacement and the notice. -/
def tryBody (env : Env) (folder : String) (link : ExtractedLink) :
    Except String (List String × List (String × String) × EditorState) :=
  let existing := findExistingFile env.settings env.vault link.url folder
  match existing with
  | some ex =>
    if ex.name == "" then .ok ([], [], env.editor)
    else .ok ([noticeMsg link.url (some ex) folder ex.name], [],
      replaceMarkdownLink env.editor link.fullMatch ex.name link.aliasText)
  | none =>
    let name := generateName env.settings.nameStrategy env.parseHostname env.today link
    let content := generateContent env.settings.template link
    match createFile env.vault name content folder with
    | .error e => .error e
    | .ok made =>
      if name == "" then .ok ([], [made], env.editor)
      else .ok ([noticeMsg link.url none folder name], [made],
        replaceMarkdownLink env.editor link.fullMatch name link.aliasText)

/-- `callback` of src/main.ts: folder resolution and link acquisition run
before the `try` block, so their exceptions escape; exceptions inside the
`try` block become a single `Pagurl error:` notice. -/
def callback (env : Env) (folderArg : String) : CallbackResult :=
  match resolveFolder env.activeFile folderArg with
  | .error e => ⟨.error e, [], [], env.editor⟩
  | .ok folder =>
    match resolveLink env.editor with
    | .error e => ⟨.error e, [], [], env.editor⟩
    | .ok link =>
      match tryBody env folder link with
      | .error e => ⟨.ok (), ["Pagurl error: " ++ e], [], env.editor⟩
      | .ok (ns, made, ed) => ⟨.ok (), ns, made, ed⟩

/-- Shape of the scheme part accepted by `parseScheme`: `http` or `https`
with each letter in either case, followed by `://`. -/
def SchemeShape (sch : List Char) : Prop :=
  (∃ c1 c2 c3 c4, sch = [c1, c2, c3, c4, ':', '/', '/'] ∧
    ciEq c1 'h' 'H' = true ∧ ciEq c2 't' 'T' = true ∧ ciEq c3 't' 'T' = true ∧
    ciEq c4 'p' 'P' = true) ∨
  (∃ c1 c2 c3 c4 c5, sch = [c1, c2, c3, c4, c5, ':', '/', '/'] ∧
    ciEq c1 'h' 'H' = true ∧ ciEq c2 't' 'T' = true ∧ ciEq c3 't' 'T' = true ∧
    ciEq c4 'p' 'P' = true ∧ ciEq c5 's' 'S' = true)

theorem dropWhile_dropWhile (p : Char → Bool) (l : List Char) :
    (l.dropWhile p).dropWhile p = l.dropWhile p := by
  induction l with
  | nil => rfl
  | cons c rest ih =>
    rw [List.dropWhile_cons]
    cases h : p c with
    | true => simpa using ih
    | false => simp [List.dropWhile_cons, h]

theorem isPre_iff (l1 l2 : List Char) : l1.isPrefixOf l2 ↔ l1 <+: l2 :=
  List.isPrefixOf_iff_prefix

theorem trimRight_pre (p : Char → Bool) (m : List Char) :
    (m.reverse.dropWhile p).reverse <+: m := by
  conv_rhs => rw [← m.reverse_reverse, ← List.takeWhile_append_dropWhile p m.reverse]
  rw [List.reverse_append]
  exact List.prefix_append _ _

theorem dropWhile_eq_self_of_pre (p : Char → Bool) {m t : List Char}
    (hm : m.dropWhile p = m) (ht : t <+: m) : t.dropWhile p = t := by
  cases t with
  | nil => rfl
  | cons c t' =>
    obtain ⟨s, hs⟩ := ht
    subst hs
    rw [List.cons_append, List.dropWhile_cons] at hm
    rw [List.dropWhile_cons]
    cases h : p c with
    | false => simp
    | true =>
      rw [h, if_pos rfl] at hm
      exfalso
      have hlen := congrArg List.length hm
      have hle := (List.dropWhile_sublist (l := t' ++ s) (p := p)).length_le
      simp only [List.length_cons] at hlen
      omega

theorem jsTrim_idem (l : List Char) : jsTrim (jsTrim l) = jsTrim l := by
  have hm : (l.dropWhile isJsSpace).dropWhile isJsSpace = l.dropWhile isJsSpace :=
    dropWhile_dropWhile _ _
  have ht : jsTrim l <+: l.dropWhile isJsSpace := trimRight_pre _ _
  have h1 : (jsTrim l).dropWhile isJsSpace = jsTrim l :=
    dropWhile_eq_self_of_pre _ hm ht
  show ((((jsTrim l).dropWhile isJsSpace).reverse.dropWhile isJsSpace)).reverse = jsTrim l
  rw [h1]
  have h2 : (jsTrim l).reverse = (l.dropWhile isJsSpace).reverse.dropWhile isJsSpace := by
    simp [jsTrim]
  rw [h2, dropWhile_dropWhile, ← h2, List.reverse_reverse]

theorem takeWhile_app_all (p : Char → Bool) {xs : List Char} (ys : List Char)
    (h : ∀ c ∈ xs, p c = true) :
    (xs ++ ys).takeWhile p = xs ++ ys.takeWhile p := by
  induction xs with
  | nil => simp
  | cons c rest ih =>
    rw [List.cons_append, List.takeWhile_cons, h c (by simp), if_pos rfl,
      List.cons_append, ih (fun c hc => h c (by simp [hc]))]

theorem dropWhile_app_all (p : Char → Bool) {xs : List Char} (ys : List Char)
    (h : ∀ c ∈ xs, p c = true) :
    (xs ++ ys).dropWhile p = ys.dropWhile p := by
  induction xs with
  | nil => simp
  | cons c rest ih =>
    rw [List.cons_append, List.dropWhile_cons, h c (by simp)]
    exact ih (fun c hc => h c (by simp [hc]))

theorem takeWhile_stop (p : Char → Bool) {xs ys : List Char}
    (h : ∀ c ∈ xs, p c = true) (h2 : ∀ y, ys.head? = some y → p y = false) :
    (xs ++ ys).takeWhile p = xs := by
  rw [takeWhile_app_all p ys h]
  cases ys with
  | nil => simp
  | cons y ys' => rw [List.takeWhile_cons, h2 y rfl, if_neg (by simp)]; simp

theorem dropWhile_stop (p : Char → Bool) {xs ys : List Char}
    (h : ∀ c ∈ xs, p c = true) (h2 : ∀ y, ys.head? = some y → p y = false) :
    (xs ++ ys).dropWhile p = ys := by
  rw [dropWhile_app_all p ys h]
  cases ys with
  | nil => simp
  | cons y ys' => rw [List.dropWhile_cons, h2 y rfl, if_neg (by simp)]

theorem splitFirst_sound (pat : List Char) :
    ∀ (s p q : List Char), splitFirst pat s = some (p, q) → s = p ++ pat ++ q := by
  intro s
  induction s with
  | nil =>
    intro p q h
    rw [splitFirst] at h
    by_cases he : pat.isEmpty
    · rw [if_pos he] at h
      simp at h
      obtain ⟨rfl, rfl⟩ := h
      have : pat = [] := by simpa [List.isEmpty_iff] using he
      simp [this]
    · rw [if_neg he] at h
      exact absurd h (by simp)
  | cons c rest ih =>
    intro p q h
    rw [splitFirst] at h
    by_cases hp : pat.isPrefixOf (c :: rest)
    · rw [if_pos hp] at h
      obtain ⟨t, ht⟩ : pat <+: c :: rest := isPre_iff _ _ |>.mp hp
      simp at h
      obtain ⟨rfl, rfl⟩ := h
      rw [← ht, List.drop_left]
      simp
    · rw [if_neg hp] at h
      cases hsf : splitFirst pat rest with
      | none => rw [hsf] at h; exact absurd h (by simp)
      | some pq =>
        obtain ⟨p', q'⟩ := pq
        rw [hsf] at h
        simp at h
        obtain ⟨rfl, rfl⟩ := h
        have := ih p' q' hsf
        simp [this]

theorem splitFirst_exists (pat : List Char) :
    ∀ (p q s : List Char), s = p ++ pat ++ q → ∃ r, splitFirst pat s = some r := by
  intro p
  induction p with
  | nil =>
    intro q s hs
    cases s with
    | nil =>
      have : pat = [] := by
        have := congrArg List.length hs
        simp at this
        exact List.length_eq_zero.mp (by omega)
      rw [splitFirst, if_pos (by simp [this])]
      exact ⟨_, rfl⟩
    | cons c rest =>
      have hp : pat.isPrefixOf (c :: rest) := by
        rw [isPre_iff]
        rw [hs]
        exact (List.prefix_append pat q).trans (by simp)
      rw [splitFirst, if_pos hp]
      exact ⟨_, rfl⟩
  | cons c p' ih =>
    intro q s hs
    cases s with
    | nil => simp at hs
    | cons c0 rest =>
      have hc : c0 = c ∧ rest = p' ++ pat ++ q := by
        rw [List.cons_append, List.cons_append] at hs
        injection hs with h1 h2
        exact ⟨h1, by simpa using h2⟩
      rw [splitFirst]
      by_cases hp : pat.isPrefixOf (c0 :: rest)
      · rw [if_pos hp]; exact ⟨_, rfl⟩
      · rw [if_neg hp]
        obtain ⟨r, hr⟩ := ih q rest hc.2
        rw [hr]
        exact ⟨_, rfl⟩

theorem splitFirst_minimal (pat : List Char) :
    ∀ (s p q : List Char), splitFirst pat s = some (p, q) →
    ∀ p' q', s = p' ++ pat ++ q' → p.length ≤ p'.length := by
  intro s
  induction s with
  | nil =>
    intro p q h p' q' hs
    rw [splitFirst] at h
    by_cases he : pat.isEmpty
    · rw [if_pos he] at h
      simp at h
      obtain ⟨rfl, rfl⟩ := h
      simp
    · rw [if_neg he] at h; exact absurd h (by simp)
  | cons c rest ih =>
    intro p q h p' q' hs
    rw [splitFirst] at h
    by_cases hp : pat.isPrefixOf (c :: rest)
    · rw [if_pos hp] at h
      simp at h
      obtain ⟨rfl, rfl⟩ := h
      simp
    · rw [if_neg hp] at h
      cases hsf : splitFirst pat rest with
      | none => rw [hsf] at h; exact absurd h (by simp)
      | some pq =>
        obtain ⟨p0, q0⟩ := pq
        rw [hsf] at h
        simp at h
        obtain ⟨hpp, rfl⟩ := h
        cases p' with
        | nil =>
          exfalso
          apply hp
          rw [isPre_iff, hs]
          exact (List.prefix_append pat q').trans (by simp)
        | cons c' p1 =>
          have hc : rest = p1 ++ pat ++ q' := by
            have h2 := congrArg List.tail hs
            simpa using h2
          have := ih p0 q0 hsf p1 q' hc
          subst hpp
          simp only [List.length_cons]
          omega

theorem splitFirst_of_first_occurrence (pat s pre post : List Char)
    (hd : s = pre ++ pat ++ post)
    (hmin : ∀ i, i < pre.length → pat.isPrefixOf (s.drop i) = false) :
    splitFirst pat s = some (pre, post) := by
  obtain ⟨r, hr⟩ := splitFirst_exists pat pre post s hd
  obtain ⟨p0, q0⟩ := r
  have hsound := splitFirst_sound pat s p0 q0 hr
  have hle := splitFirst_minimal pat s p0 q0 hr pre post hd
  have hlen : p0.length = pre.length := by
    rcases Nat.lt_or_ge p0.length pre.length with hlt | hge
    · exfalso
      have hdrop : s.drop p0.length = pat ++ q0 := by
        rw [hsound, List.append_assoc, List.drop_left]
      have : pat.isPrefixOf (s.drop p0.length) = true := by
        rw [hdrop, isPre_iff]
        exact List.prefix_append pat q0
      rw [hmin p0.length hlt] at this
      exact absurd this (by simp)
    · omega
  have hp0 : p0 = pre := by
    have h1 : s.take p0.length = p0 := by
      rw [hsound, List.append_assoc, List.take_left]
    have h2 : s.take pre.length = pre := by
      rw [hd, List.append_assoc, List.take_left]
    rw [← h1, ← h2, hlen]
  subst hp0
  have hq0 : q0 = post := by
    have := hsound.symm.trans hd
    rw [List.append_assoc, List.append_assoc] at this
    have := List.append_cancel_left this
    exact List.append_cancel_left this
  rw [hr, hq0]

theorem splitFirst_eq_none (pat s : List Char)
    (h : ∀ i, i ≤ s.length → pat.isPrefixOf (s.drop i) = false) :
    splitFirst pat s = none := by
  cases hr : splitFirst pat s with
  | none => rfl
  | some r =>
    exfalso
    obtain ⟨p0, q0⟩ := r
    have hsound := splitFirst_sound pat s p0 q0 hr
    have hlen : p0.length ≤ s.length := by
      have := congrArg List.length hsound
      simp at this
      omega
    have hdrop : s.drop p0.length = pat ++ q0 := by
      rw [hsound, List.append_assoc, List.drop_left]
    have hpf : pat.isPrefixOf (s.drop p0.length) = true := by
      rw [hdrop, isPre_iff]
      exact List.prefix_append pat q0
    rw [h p0.length hlen] at hpf
    exact absurd hpf (by simp)

theorem getSub_noDollar_aux (m b a : List Char) :
    ∀ (n : Nat) (repl : List Char), repl.length ≤ n → '$' ∉ repl →
    getSubstitution m b a repl = repl := by
  intro n
  induction n with
  | zero =>
    intro repl h _
    have : repl = [] := List.length_eq_zero.mp (by omega)
    subst this
    rfl
  | succ n ih =>
    intro repl h hd
    match repl with
    | [] => rfl
    | [c] => rfl
    | c :: d :: rest =>
      have hc : (c == '$') = false := by
        rw [beq_eq_false_iff_ne]
        intro hcd
        exact hd (by simp [hcd])
      rw [getSubstitution, if_neg (by simp [hc])]
      have : getSubstitution m b a (d :: rest) = d :: rest := by
        apply ih
        · simpa using Nat.le_of_succ_le_succ (by simpa using h)
        · intro hm
          exact hd (by simp at hm ⊢; tauto)
      rw [this]

theorem getSubstitution_noDollar (m b a repl : List Char) (hd : '$' ∉ repl) :
    getSubstitution m b a repl = repl :=
  getSub_noDollar_aux m b a repl.length repl le_rfl hd

theorem replAllGo_noDollar (pat repl orig : List Char) (hd : '$' ∉ repl) :
    ∀ (fuel : Nat) (pos : Nat) (cur : List Char),
    replAllGo pat repl orig fuel pos cur = litReplAllGo pat repl fuel cur := by
  intro fuel
  induction fuel with
  | zero => intro pos cur; rfl
  | succ n ih =>
    intro pos cur
    simp only [replAllGo, litReplAllGo]
    by_cases hp : (!pat.isEmpty && pat.isPrefixOf cur) = true
    · rw [if_pos hp, if_pos hp, getSubstitution_noDollar _ _ _ _ hd, ih]
    · rw [if_neg hp, if_neg hp]
      cases cur with
      | nil => rfl
      | cons c rest =>
        show c :: replAllGo pat repl orig n (pos + 1) rest =
          c :: litReplAllGo pat repl n rest
        rw [ih]

theorem angSplit_sound (s : List Char) : s = (angSplit s).1 ++ (angSplit s).2 := by
  rw [angSplit.eq_def]
  split
  · simp
  · simp

theorem tryClose_sound (s close r : List Char) (h : tryClose s = some (close, r)) :
    s = close ++ r := by
  rw [tryClose.eq_def] at h
  split at h
  · rename_i s1
    split at h
    · rename_i r2 heq
      simp at h
      obtain ⟨rfl, rfl⟩ := h
      have hspan := List.takeWhile_append_dropWhile isJsSpace s1
      rw [heq] at hspan
      conv_lhs => rw [← hspan]
      simp
    · exact absurd h (by simp)
  · split at h
    · rename_i r2 heq
      simp at h
      obtain ⟨rfl, rfl⟩ := h
      have hspan := List.takeWhile_append_dropWhile isJsSpace s
      rw [heq] at hspan
      conv_lhs => rw [← hspan]
      simp
    · exact absurd h (by simp)

theorem urlBacktrack_sound :
    ∀ (revT rest taken close r' : List Char),
    urlBacktrack revT rest = some (taken, close, r') →
    revT.reverse ++ rest = taken ++ close ++ r' ∧ taken ≠ [] ∧
      ∀ c ∈ taken, c ∈ revT := by
  intro revT
  induction revT with
  | nil => intro rest taken close r' h; exact absurd h (by simp [urlBacktrack])
  | cons c revT' ih =>
    intro rest taken close r' h
    rw [urlBacktrack] at h
    cases htc : tryClose rest with
    | some cl2 =>
      obtain ⟨cl, r2⟩ := cl2
      rw [htc] at h
      simp at h
      obtain ⟨rfl, rfl, rfl⟩ := h
      refine ⟨?_, by simp, ?_⟩
      · rw [tryClose_sound rest cl r2 htc]
        simp
      · intro x hx
        simp at hx ⊢
        tauto
    | none =>
      rw [htc] at h
      obtain ⟨heq, hne, hmem⟩ := ih (c :: rest) taken close r' h
      refine ⟨?_, hne, fun x hx => ?_⟩
      · rw [← heq]
        simp
      · have := hmem x hx
        simp at this ⊢
        tauto

theorem parseScheme_sound :
    ∀ (s sch r : List Char), parseScheme s = some (sch, r) → s = sch ++ r := by
  intro s sch r h
  rw [parseScheme.eq_def] at h
  split at h
  · split at h
    · split at h
      · split at h
        · simp at h
          obtain ⟨rfl, rfl⟩ := h
          simp
        · split at h
          · rename_i heq
            simp at heq
          · exact absurd h (by simp)
      · simp at h
        obtain ⟨rfl, rfl⟩ := h
        simp
      · exact absurd h (by simp)
    · exact absurd h (by simp)
  · exact absurd h (by simp)

theorem matchAt_sound :
    ∀ (s fm a u rest : List Char),
    matchAt s = some (fm, a, u, rest) → s = fm ++ rest := by
  intro s fm a u rest h
  rw [matchAt.eq_def] at h
  split at h
  · rename_i s1
    simp only at h
    split at h
    · exact absurd h (by simp)
    · split at h
      · rename_i s4 heq2
        split at h
        · exact absurd h (by simp)
        · rename_i ps sch s7 heqPs
          split at h
          · exact absurd h (by simp)
          · rename_i ub taken close s9 heqUb
            simp at h
            obtain ⟨rfl, rfl, rfl, rfl⟩ := h
            have hspan1 := List.takeWhile_append_dropWhile
              (fun c => !(c == ']')) s1
            rw [heq2] at hspan1
            have hspan2 := List.takeWhile_append_dropWhile isJsSpace s4
            have hang := angSplit_sound (s4.dropWhile isJsSpace)
            have hps := parseScheme_sound _ _ _ heqPs
            have hub := (urlBacktrack_sound _ _ _ _ _ heqUb).1
            rw [List.reverse_reverse, List.takeWhile_append_dropWhile] at hub
            generalize hA : s1.takeWhile (fun c => !(c == ']')) = A at hspan1 ⊢
            generalize hW : s4.takeWhile isJsSpace = W at hspan2 ⊢
            generalize hD : s4.dropWhile isJsSpace = D at hspan2 hang heqPs ⊢
            generalize hG : (angSplit D).1 = G at hang ⊢
            generalize hP : (angSplit D).2 = P at hang heqPs hps ⊢
            subst hspan1
            subst hspan2
            subst hang
            have hP2 := parseScheme_sound _ _ _ heqPs
            rw [hP2, hub]
            simp
      · exact absurd h (by simp)
  · exact absurd h (by simp)

theorem findList_sound :
    ∀ (s fm a u : List Char), findMarkdownLinkList s = some (fm, a, u) →
    ∃ p r, s = p ++ fm ++ r := by
  intro s
  induction s with
  | nil =>
    intro fm a u h
    rw [findMarkdownLinkList] at h
    cases hm : matchAt [] with
    | some x => exact absurd hm (by simp [matchAt])
    | none => rw [hm] at h; exact absurd h (by simp)
  | cons c rest ih =>
    intro fm a u h
    rw [findMarkdownLinkList] at h
    cases hm : matchAt (c :: rest) with
    | some x =>
      obtain ⟨fm0, a0, u0, r0⟩ := x
      rw [hm] at h
      simp at h
      obtain ⟨rfl, rfl, rfl⟩ := h
      exact ⟨[], r0, by simpa using matchAt_sound _ _ _ _ _ hm⟩
    | none =>
      rw [hm] at h
      obtain ⟨p, r, hp⟩ := ih fm a u h
      exact ⟨c :: p, r, by simp [hp]⟩


theorem ciEq_elim {c lo hi : Char} (h : ciEq c lo hi = true) : c = lo ∨ c = hi := by
  rcases Bool.or_eq_true_iff.mp h with h' | h'
  · exact Or.inl (by simpa using h')
  · exact Or.inr (by simpa using h')

theorem parseScheme_app_nos {c1 c2 c3 c4 : Char} (r : List Char)
    (h1 : ciEq c1 'h' 'H' = true) (h2 : ciEq c2 't' 'T' = true)
    (h3 : ciEq c3 't' 'T' = true) (h4 : ciEq c4 'p' 'P' = true) :
    parseScheme (c1 :: c2 :: c3 :: c4 :: ':' :: '/' :: '/' :: r) =
      some ([c1, c2, c3, c4, ':', '/', '/'], r) := by
  rw [parseScheme.eq_def]
  simp [h1, h2, h3, h4]

theorem parseScheme_app_s {c1 c2 c3 c4 c5 : Char} (r : List Char)
    (h1 : ciEq c1 'h' 'H' = true) (h2 : ciEq c2 't' 'T' = true)
    (h3 : ciEq c3 't' 'T' = true) (h4 : ciEq c4 'p' 'P' = true)
    (h5 : ciEq c5 's' 'S' = true) :
    parseScheme (c1 :: c2 :: c3 :: c4 :: c5 :: ':' :: '/' :: '/' :: r) =
      some ([c1, c2, c3, c4, c5, ':', '/', '/'], r) := by
  rw [parseScheme.eq_def]
  simp [h1, h2, h3, h4, h5]

theorem tryClose_gt {w : List Char} (r : List Char)
    (hw : ∀ c ∈ w, isJsSpace c = true) :
    tryClose ('>' :: (w ++ ')' :: r)) = some ('>' :: (w ++ [')']), r) := by
  have hstop : ∀ y, ((')' :: r : List Char)).head? = some y → isJsSpace y = false := by
    intro y hy
    injection hy with hy'
    subst hy'
    decide
  have hdw := dropWhile_stop isJsSpace hw hstop
  have htw := takeWhile_stop isJsSpace hw hstop
  simp only [tryClose, hdw, htw]

theorem tryClose_nogt {w : List Char} (r : List Char)
    (hw : ∀ c ∈ w, isJsSpace c = true) :
    tryClose (w ++ ')' :: r) = some (w ++ [')'], r) := by
  have hstop : ∀ y, ((')' :: r : List Char)).head? = some y → isJsSpace y = false := by
    intro y hy
    injection hy with hy'
    subst hy'
    decide
  have hdw := dropWhile_stop isJsSpace hw hstop
  have htw := takeWhile_stop isJsSpace hw hstop
  rw [tryClose.eq_def]
  split
  · rename_i s1 heq
    exfalso
    cases w with
    | nil => simp at heq
    | cons c w' =>
      rw [List.cons_append] at heq
      injection heq with hc _
      have hsp := hw c (by simp)
      rw [hc] at hsp
      exact absurd hsp (by decide)
  · simp only [hdw, htw]

theorem urlBacktrack_entry {revT rest : List Char} (cl r2 : List Char)
    (htc : tryClose rest = some (cl, r2)) (hne : revT ≠ []) :
    urlBacktrack revT rest = some (revT.reverse, cl, r2) := by
  cases revT with
  | nil => exact absurd rfl hne
  | cons c revT' => rw [urlBacktrack, htc]

theorem urlBacktrack_succeeds :
    ∀ (revT : List Char), ∀ (rest : List Char), ∀ (m : Nat), m < revT.length →
    (∃ x, tryClose ((revT.take m).reverse ++ rest) = some x) →
    ∃ y, urlBacktrack revT rest = some y := by
  intro revT
  induction revT with
  | nil => intro rest m hm _; simp at hm
  | cons c revT' ih =>
    intro rest m hm hx
    cases htc : tryClose rest with
    | some p =>
      obtain ⟨cl, r2⟩ := p
      exact ⟨_, urlBacktrack_entry cl r2 htc (by simp)⟩
    | none =>
      rw [urlBacktrack, htc]
      cases m with
      | zero =>
        obtain ⟨x, hx'⟩ := hx
        simp at hx'
        rw [htc] at hx'
        exact absurd hx' (by simp)
      | succ m' =>
        apply ih (c :: rest) m' (by simpa using Nat.lt_of_succ_lt_succ hm)
        obtain ⟨x, hx'⟩ := hx
        refine ⟨x, ?_⟩
        rw [← hx']
        congr 1
        simp [List.take_succ_cons]

theorem angSplit_lt (r : List Char) : angSplit ('<' :: r) = (['<'], r) := rfl

theorem angSplit_not_lt (s : List Char) (h : ∀ r, s ≠ '<' :: r) :
    angSplit s = ([], s) := by
  rw [angSplit.eq_def]
  split
  · rename_i r
    exact absurd rfl (h r)
  · rfl

theorem isUrlChar_of_space {c : Char} (h : isJsSpace c = true) :
    isUrlChar c = false := by
  simp [isUrlChar, h]

theorem matchAt_complete (a w1 ang sch u cl w2 post : List Char)
    (ha : a ≠ []) (ha2 : ∀ c ∈ a, (c == ']') = false)
    (hw1 : ∀ c ∈ w1, isJsSpace c = true) (hw2 : ∀ c ∈ w2, isJsSpace c = true)
    (hang : ang = [] ∨ ang = ['<']) (hcl : cl = [] ∨ cl = ['>'])
    (hsch : SchemeShape sch)
    (hu : u ≠ []) (hu2 : ∀ c ∈ u, isUrlChar c = true) :
    ∃ x, matchAt ('[' :: (a ++ ']' :: '(' ::
      (w1 ++ (ang ++ (sch ++ (u ++ (cl ++ (w2 ++ ')' :: post)))))))) = some x := by
  have hschHead : ∃ c1 sch', sch = c1 :: sch' ∧ (c1 = 'h' ∨ c1 = 'H') := by
    rcases hsch with ⟨c1, c2, c3, c4, rfl, h1, _⟩ | ⟨c1, c2, c3, c4, c5, rfl, h1, _⟩
    · exact ⟨c1, _, rfl, ciEq_elim h1⟩
    · exact ⟨c1, _, rfl, ciEq_elim h1⟩
  obtain ⟨c1, sch', hschEq, hc1⟩ := hschHead
  -- stage A: the alias run
  have hpa : ∀ c ∈ a, (fun c => !(c == ']')) c = true := by
    intro c hc
    simp [ha2 c hc]
  have hstopA : ∀ y, ((']' :: '(' ::
      (w1 ++ (ang ++ (sch ++ (u ++ (cl ++ (w2 ++ ')' :: post))))))) :
      List Char).head? = some y → (fun c => !(c == ']')) y = false := by
    intro y hy
    injection hy with hy'
    subst hy'
    rfl
  have htwA := takeWhile_stop _ hpa hstopA
  have hdwA := dropWhile_stop _ hpa hstopA
  have hae : a.isEmpty = false := by
    cases a with
    | nil => exact absurd rfl ha
    | cons _ _ => rfl
  -- stage B: the whitespace run after the opening parenthesis
  have hstopB : ∀ y, ((ang ++ (sch ++ (u ++ (cl ++ (w2 ++ ')' :: post))))) :
      List Char).head? = some y → isJsSpace y = false := by
    rcases hang with rfl | rfl
    · rw [hschEq]
      intro y hy
      simp at hy
      subst hy
      rcases hc1 with rfl | rfl <;> decide
    · intro y hy
      simp at hy
      subst hy
      decide
  have hW := takeWhile_stop _ hw1 hstopB
  have hD := dropWhile_stop _ hw1 hstopB
  -- stage C: the optional angle bracket
  have hangS : angSplit (ang ++ (sch ++ (u ++ (cl ++ (w2 ++ ')' :: post))))) =
      (ang, sch ++ (u ++ (cl ++ (w2 ++ ')' :: post)))) := by
    rcases hang with rfl | rfl
    · rw [List.nil_append]
      apply angSplit_not_lt
      intro r hr
      rw [hschEq, List.cons_append] at hr
      injection hr with hc _
      rcases hc1 with rfl | rfl <;> simp at hc
    · rw [List.cons_append]
      exact angSplit_lt _
  -- stage D: the scheme
  have hPS : parseScheme (sch ++ (u ++ (cl ++ (w2 ++ ')' :: post)))) =
      some (sch, u ++ (cl ++ (w2 ++ ')' :: post))) := by
    rcases hsch with ⟨d1, d2, d3, d4, rfl, h1, h2, h3, h4⟩ |
      ⟨d1, d2, d3, d4, d5, rfl, h1, h2, h3, h4, h5⟩
    · simpa using parseScheme_app_nos _ h1 h2 h3 h4
    · simpa using parseScheme_app_s _ h1 h2 h3 h4 h5
  -- stage E: the url run and the greedy close
  have hune : u.reverse ≠ [] := by simpa using hu
  have hRB : ∃ y, urlBacktrack
      (((u ++ (cl ++ (w2 ++ ')' :: post))).takeWhile isUrlChar).reverse)
      ((u ++ (cl ++ (w2 ++ ')' :: post))).dropWhile isUrlChar) = some y := by
    rcases hcl with rfl | rfl
    · cases hw2c : w2 with
      | nil =>
        subst hw2c
        simp only [List.nil_append]
        have htwE : (u ++ ')' :: post).takeWhile isUrlChar =
            u ++ ')' :: post.takeWhile isUrlChar := by
          rw [takeWhile_app_all _ _ hu2, List.takeWhile_cons]
          simp [isUrlChar, isJsSpace]
        have hdwE : (u ++ ')' :: post).dropWhile isUrlChar =
            post.dropWhile isUrlChar := by
          rw [dropWhile_app_all _ _ hu2, List.dropWhile_cons]
          simp [isUrlChar, isJsSpace]
        rw [htwE, hdwE]
        apply urlBacktrack_succeeds _ _ ((post.takeWhile isUrlChar).length + 1)
        · rw [List.length_reverse]
          simp only [List.length_append, List.length_cons]
          have := List.length_pos.mpr hu
          omega
        · have htk : (((u ++ ')' :: post.takeWhile isUrlChar).reverse).take
              ((post.takeWhile isUrlChar).length + 1)).reverse =
              ')' :: post.takeWhile isUrlChar := by
            rw [List.reverse_append]
            rw [List.take_left' (by simp)]
            simp
          rw [htk]
          rw [List.cons_append]
          exact ⟨_, tryClose_nogt (w := []) _ (by intro c hc; simp at hc)⟩
      | cons y w2' =>
        subst hw2c
        simp only [List.nil_append]
        have hstopE : ∀ z, ((y :: w2') ++ ')' :: post : List Char).head? = some z →
            isUrlChar z = false := by
          intro z hz
          simp at hz
          subst hz
          exact isUrlChar_of_space (hw2 y (by simp))
        rw [takeWhile_stop _ hu2 hstopE, dropWhile_stop _ hu2 hstopE]
        exact ⟨_, urlBacktrack_entry _ _
          (tryClose_nogt _ (fun c hc => hw2 c hc)) hune⟩
    · have hstopE : ∀ z, (('>' :: (w2 ++ ')' :: post)) : List Char).head? = some z →
          isUrlChar z = false := by
        intro z hz
        injection hz with hz'
        subst hz'
        decide
      simp only [List.cons_append, List.nil_append]
      rw [takeWhile_stop _ hu2 hstopE, dropWhile_stop _ hu2 hstopE]
      exact ⟨_, urlBacktrack_entry _ _ (tryClose_gt _ hw2) hune⟩
  obtain ⟨y, hy⟩ := hRB
  obtain ⟨tk, cl2, s9⟩ := y
  refine ⟨('[' :: a ++ ']' :: '(' :: (w1 ++ ang ++ sch ++ tk ++ cl2),
    a, sch ++ tk, s9), ?_⟩
  rw [matchAt.eq_def]
  simp only [htwA, hdwA, hae, hW, hD, hangS, hPS, hy]
  simp

theorem findList_of_suffix :
    ∀ (pre rest : List Char), (∃ x, matchAt rest = some x) →
    ∃ y, findMarkdownLinkList (pre ++ rest) = some y := by
  intro pre
  induction pre with
  | nil =>
    intro rest hx
    obtain ⟨⟨fm, a, u, r⟩, hm⟩ := hx
    rw [List.nil_append]
    cases rest with
    | nil => rw [findMarkdownLinkList, hm]; exact ⟨_, rfl⟩
    | cons c rest' => rw [findMarkdownLinkList, hm]; exact ⟨_, rfl⟩
  | cons c pre' ih =>
    intro rest hx
    rw [List.cons_append, findMarkdownLinkList]
    cases hm : matchAt (c :: (pre' ++ rest)) with
    | some x =>
      obtain ⟨fm, a, u, r⟩ := x
      exact ⟨_, rfl⟩
    | none =>
      exact ih rest hx

theorem matchesUrl_iff (f : VFile) (url : String) :
    matchesUrl f url = true ↔ ∃ fm, f.frontmatter = some fm ∧ fm.url = some url := by
  unfold matchesUrl
  cases hfm : f.frontmatter with
  | none => simp
  | some fm => simp [beq_iff_eq]

theorem findExistingFile_some {s : PagurlSettings} {v : List VFile}
    {url folder : String} {m : ExistingFileMatch}
    (h : findExistingFile s v url folder = some m) :
    ∃ f, f ∈ v ∧ (s.vaultWideNoDuplicate = true ∨ f.parentPath = folder) ∧
      matchesUrl f url = true ∧ m = ⟨f.basename, f.parentPath⟩ := by
  unfold findExistingFile at h
  cases hf : (v.filter
      (fun f => s.vaultWideNoDuplicate || f.parentPath == folder)).find?
      (fun f => matchesUrl f url) with
  | none => rw [hf] at h; exact absurd h (by simp)
  | some f =>
    rw [hf] at h
    simp at h
    have hmem := List.mem_of_find?_eq_some hf
    have hpred := List.find?_some hf
    rw [List.mem_filter] at hmem
    refine ⟨f, hmem.1, ?_, hpred, h.symm⟩
    rcases Bool.or_eq_true_iff.mp hmem.2 with h' | h'
    · exact Or.inl h'
    · exact Or.inr (by simpa using h')

theorem findExistingFile_none {s : PagurlSettings} {v : List VFile}
    {url folder : String}
    (h : findExistingFile s v url folder = none) :
    ∀ f ∈ v, (s.vaultWideNoDuplicate = true ∨ f.parentPath = folder) →
      matchesUrl f url = false := by
  intro f hf hscope
  unfold findExistingFile at h
  cases hfind : (v.filter
      (fun f => s.vaultWideNoDuplicate || f.parentPath == folder)).find?
      (fun f => matchesUrl f url) with
  | some f0 => rw [hfind] at h; exact absurd h (by simp)
  | none =>
    have := List.find?_eq_none.mp hfind f ?_
    · simpa using this
    · rw [List.mem_filter]
      refine ⟨hf, ?_⟩
      rcases hscope with h' | h'
      · simp [h']
      · simp [h']

theorem findExistingFile_none_of {s : PagurlSettings} {v : List VFile}
    {url folder : String}
    (hvw : s.vaultWideNoDuplicate = false)
    (h : ∀ f ∈ v, f.parentPath = folder → matchesUrl f url = false) :
    findExistingFile s v url folder = none := by
  unfold findExistingFile
  have hfind : (v.filter
      (fun f => s.vaultWideNoDuplicate || f.parentPath == folder)).find?
      (fun f => matchesUrl f url) = none := by
    rw [List.find?_eq_none]
    intro f hf
    rw [List.mem_filter, hvw, Bool.false_or] at hf
    have := h f hf.1 (by simpa using hf.2)
    simp [this]
  rw [hfind]

theorem tryBody_existing {env : Env} {folder : String} {link : ExtractedLink}
    {ex : ExistingFileMatch}
    (h : findExistingFile env.settings env.vault link.url folder = some ex) :
    ∃ ns ed, tryBody env folder link = .ok (ns, [], ed) := by
  simp only [tryBody, h]
  by_cases hn : ex.name == ""
  · rw [if_pos hn]
    exact ⟨[], env.editor, rfl⟩
  · rw [if_neg hn]
    exact ⟨_, _, rfl⟩

theorem tryBody_fresh {env : Env} {folder : String} {link : ExtractedLink}
    (h : findExistingFile env.settings env.vault link.url folder = none) :
    ∀ ns cr ed, tryBody env folder link = .ok (ns, cr, ed) → cr.length = 1 := by
  intro ns cr ed htb
  simp only [tryBody, h] at htb
  cases hcf : createFile env.vault
      (generateName env.settings.nameStrategy env.parseHostname env.today link)
      (generateContent env.settings.template link) folder with
  | error e => rw [hcf] at htb; exact absurd htb (by simp)
  | ok made =>
    rw [hcf] at htb
    by_cases hn : generateName env.settings.nameStrategy env.parseHostname
        env.today link == ""
    · simp [hn] at htb
      obtain ⟨h1, h2, h3⟩ := htb
      have := congrArg List.length h2
      simpa using this.symm
    · simp [hn] at htb
      obtain ⟨h1, h2, h3⟩ := htb
      have := congrArg List.length h2
      simpa using this.symm

/-- Claim C9: sanitization is idempotent — sanitizing the sanitized form of
any string returns it unchanged, where `sanitizeName` replaces every
character of the class `/ \ # % & { } | < > * ? $ ! ' " : @` by `-` and
passes all other characters through. -/
theorem claim9_sanitize_idempotent (s : String) :
    sanitizeName (sanitizeName s) = sanitizeName s := by
  have hdash : isBadFileChar '-' = false := by decide
  have hchar : ∀ c : Char,
      (if isBadFileChar (if isBadFileChar c then '-' else c) then '-'
        else (if isBadFileChar c then '-' else c)) =
      if isBadFileChar c then '-' else c := by
    intro c
    by_cases h : isBadFileChar c
    · simp [h, hdash]
    · simp [h]
  unfold sanitizeName
  congr 1
  show (s.data.map fun c => if isBadFileChar c then '-' else c).map
      (fun c => if isBadFileChar c then '-' else c) =
    s.data.map fun c => if isBadFileChar c then '-' else c
  rw [List.map_map]
  apply List.map_congr_left
  intro c _
  simp only [Function.comp_apply]
  exact hchar c

/-- Claim C10: when `fullMatch` does not occur anywhere in the document,
`replaceMarkdownLink` is a no-op — the document written back equals the
original, the cursor is restored, and (being a total function of the
editor state) no error is raised. -/
theorem claim10_replace_noop (ed : EditorState) (fullMatch name aliasText : String)
    (h : ∀ i, i ≤ ed.doc.data.length →
      fullMatch.data.isPrefixOf (ed.doc.data.drop i) = false) :
    replaceMarkdownLink ed fullMatch name aliasText = ed := by
  have hn := splitFirst_eq_none fullMatch.data ed.doc.data h
  simp only [replaceMarkdownLink, jsReplaceFirst, hn]
  rfl

theorem claim10_witness :
    (∀ i, i ≤ ("abc" : String).data.length →
      ("zz" : String).data.isPrefixOf (("abc" : String).data.drop i) = false) ∧
    replaceMarkdownLink ⟨"s", "l", "abc", ⟨1, 2⟩⟩ "zz" "n" "a" =
      ⟨"s", "l", "abc", ⟨1, 2⟩⟩ :=
  ⟨by decide, claim10_replace_noop ⟨"s", "l", "abc", ⟨1, 2⟩⟩ "zz" "n" "a" (by decide)⟩

/-- Claim C4, counterexample: with alias `$&` (a JavaScript replacement
pattern), replacing `x` in the document `x` yields `[[n|x]]`, not the
claimed literal wiki link `[[n|$&]]` — `String.prototype.replace` expands
dollar patterns in the replacement text. -/
theorem claim4_counterexample :
    (replaceMarkdownLink ⟨"", "", "x", ⟨0, 0⟩⟩ "x" "n" "$&").doc = "[[n|x]]" ∧
    (replaceMarkdownLink ⟨"", "", "x", ⟨0, 0⟩⟩ "x" "n" "$&").doc ≠ "[[n|$&]]" := by
  constructor
  · decide
  · decide

/-- Claim C4 as amended: provided neither the generated name nor the alias
contains a `$` character (JavaScript dollar-pattern expansion applies
otherwise), the replacement step rewrites exactly the first occurrence of
`fullMatch` in the document into the literal wiki link `[[name|alias]]`
(name doubling as display text when the alias is empty), leaves the rest
of the document unchanged, and restores the cursor. -/
theorem claim4_replace_first (ed : EditorState)
    (fullMatch name aliasText : String) (pre post : List Char)
    (hd : ed.doc.data = pre ++ fullMatch.data ++ post)
    (hmin : ∀ i, i < pre.length →
      fullMatch.data.isPrefixOf (ed.doc.data.drop i) = false)
    (hn : '$' ∉ name.data) (ha : '$' ∉ aliasText.data) :
    (replaceMarkdownLink ed fullMatch name aliasText).doc.data =
      pre ++ ("[[" ++ name ++ "|" ++
        (if aliasText == "" then name else aliasText) ++ "]]").data ++ post ∧
    (replaceMarkdownLink ed fullMatch name aliasText).cursor = ed.cursor := by
  have hsf := splitFirst_of_first_occurrence fullMatch.data ed.doc.data pre post
    hd hmin
  have hnd : '$' ∉ ("[[" ++ name ++ "|" ++
      (if aliasText == "" then name else aliasText) ++ "]]").data := by
    simp only [String.data_append, List.mem_append]
    intro hmem
    rcases hmem with (((h1 | h2) | h3) | h4) | h5
    · exact absurd h1 (by decide)
    · exact hn h2
    · exact absurd h3 (by decide)
    · by_cases hc : aliasText == ""
      · rw [if_pos hc] at h4
        exact hn (by simpa using h4)
      · rw [if_neg hc] at h4
        exact ha (by simpa using h4)
    · exact absurd h5 (by decide)
  constructor
  · show (jsReplaceFirst ed.doc fullMatch
      ("[[" ++ name ++ "|" ++ (if aliasText == "" then name else aliasText)
        ++ "]]")).data = _
    simp only [jsReplaceFirst, hsf]
    rw [getSubstitution_noDollar _ _ _ _ hnd]
  · rfl

theorem claim4_witness :
    (("q fm q" : String).data = "q ".data ++ ("fm" : String).data ++ " q".data ∧
      (∀ i, i < ("q " : String).data.length →
        ("fm" : String).data.isPrefixOf (("q fm q" : String).data.drop i) = false) ∧
      '$' ∉ ("n" : String).data ∧ '$' ∉ ("al" : String).data) ∧
    ((replaceMarkdownLink ⟨"", "", "q fm q", ⟨3, 7⟩⟩ "fm" "n" "al").doc.data =
      "q ".data ++ ("[[" ++ "n" ++ "|" ++
        (if ("al" : String) == "" then "n" else "al") ++ "]]").data ++ " q".data ∧
      (replaceMarkdownLink ⟨"", "", "q fm q", ⟨3, 7⟩⟩ "fm" "n" "al").cursor =
        (⟨"", "", "q fm q", ⟨3, 7⟩⟩ : EditorState).cursor) :=
  ⟨⟨by decide, by decide, by decide, by decide⟩,
    claim4_replace_first ⟨"", "", "q fm q", ⟨3, 7⟩⟩ "fm" "n" "al"
      "q ".data " q".data (by decide) (by decide) (by decide) (by decide)⟩

/-- Claim C7: name generation obeys the priority order — an empty url
yields the sanitized alias regardless of strategy; under `domain-date` a
parsable url yields `<hostname>-<today YYYY-MM-DD>` and an unparsable url
falls back to the sanitized alias; under `title` the result is the
sanitized alias. -/
theorem claim7_name_priority (strategy : NameStrategy)
    (parseHostname : String → Option String) (today : String)
    (link : ExtractedLink) :
    (link.url = "" → generateName strategy parseHostname today link =
      sanitizeName link.aliasText) ∧
    (∀ hostname, link.url ≠ "" → parseHostname link.url = some hostname →
      generateName .domainDate parseHostname today link =
        hostname ++ "-" ++ today) ∧
    (link.url ≠ "" → parseHostname link.url = none →
      generateName .domainDate parseHostname today link =
        sanitizeName link.aliasText) ∧
    (generateName .title parseHostname today link = sanitizeName link.aliasText) := by
  refine ⟨?_, ?_, ?_, ?_⟩
  · intro h
    simp [generateName, h]
  · intro hostname hne hp
    simp [generateName, hp, beq_eq_false_iff_ne.mpr hne]
  · intro hne hp
    simp [generateName, hp, beq_eq_false_iff_ne.mpr hne]
  · cases hb : link.url == "" with
    | true => simp [generateName, hb]
    | false => simp [generateName, hb]

theorem claim7_witness :
    (("https://example.com/x" : String) ≠ "" ∧
      (fun u : String => if u == "https://example.com/x" then
        some "example.com" else none) "https://example.com/x" =
        some "example.com") ∧
    generateName .domainDate
      (fun u : String => if u == "https://example.com/x" then
        some "example.com" else none) "2026-10-11"
      ⟨"f", "Al", "https://example.com/x"⟩ = "example.com-2026-10-11" := by
  refine ⟨⟨by decide, by decide⟩, ?_⟩
  have h := (claim7_name_priority .domainDate
    (fun u : String => if u == "https://example.com/x" then
      some "example.com" else none) "2026-10-11"
    ⟨"f", "Al", "https://example.com/x"⟩).2.1
    "example.com" (by decide) (by decide)
  rw [h]
  decide

/-- Claim C8, counterexample: the two placeholder substitutions are
sequential, not simultaneous — with template `{{alias}}`, alias `{{url}}`
and url `https://u`, the body comes out as `https://u` (the `{{url}}` text
introduced by the alias value is substituted by the second pass), not the
claimed `{{url}}`. -/
theorem claim8_counterexample :
    generateContent "\x7b\x7balias\x7d\x7d"
      ⟨"fm", "\x7b\x7burl\x7d\x7d", "https://u"⟩ =
      "---\nurl: \x22https://u\x22\naliases:\n  - \x7b\x7burl\x7d\x7d\n---\nhttps://u" ∧
    generateContent "\x7b\x7balias\x7d\x7d"
      ⟨"fm", "\x7b\x7burl\x7d\x7d", "https://u"⟩ ≠
      "---\nurl: \x22https://u\x22\naliases:\n  - \x7b\x7burl\x7d\x7d\n---\n\x7b\x7burl\x7d\x7d" := by
  constructor
  · decide
  · decide

/-- Claim C8 as amended: the generated note is a `---`-delimited
front-matter block containing the `url: "<url>"` line exactly when the url
is non-empty (omitted entirely when empty) and an `aliases:` list with the
single entry `alias`, followed by the template with every literal
occurrence of `{{alias}}` replaced by the alias value and then, in that
result, every literal occurrence of `{{url}}` replaced by the url value —
sequential passes, so `{{url}}` text contributed by the alias value is
substituted too; literal replacement holds whenever neither value contains
a dollar character (JavaScript dollar-pattern expansion applies
otherwise). -/
theorem claim8_content (template : String) (link : ExtractedLink)
    (ha : '$' ∉ link.aliasText.data) (hu : '$' ∉ link.url.data) :
    (link.url ≠ "" → generateContent template link =
      "---\n" ++ ("url: \x22" ++ link.url ++ "\x22\n") ++ "aliases:\n  - " ++
        link.aliasText ++ "\n---\n" ++
        litReplaceAll (litReplaceAll template aliasPlaceholder link.aliasText)
          urlPlaceholder link.url) ∧
    (link.url = "" → generateContent template link =
      "---\n" ++ "aliases:\n  - " ++ link.aliasText ++ "\n---\n" ++
        litReplaceAll (litReplaceAll template aliasPlaceholder link.aliasText)
          urlPlaceholder link.url) := by
  have h1 : jsReplaceAll template aliasPlaceholder link.aliasText =
      litReplaceAll template aliasPlaceholder link.aliasText := by
    unfold jsReplaceAll litReplaceAll
    rw [replAllGo_noDollar _ _ _ ha]
  have h2 : jsReplaceAll (litReplaceAll template aliasPlaceholder link.aliasText)
      urlPlaceholder link.url =
      litReplaceAll (litReplaceAll template aliasPlaceholder link.aliasText)
        urlPlaceholder link.url := by
    unfold jsReplaceAll litReplaceAll
    rw [replAllGo_noDollar _ _ _ hu]
  constructor
  · intro hne
    have hb : (link.url == "") = false := beq_eq_false_iff_ne.mpr hne
    unfold generateContent
    rw [h1, h2, hb]
    simp
  · intro he
    have hb : (link.url == "") = true := by simp [he]
    unfold generateContent
    rw [h1, h2, hb]
    simp

theorem claim8_witness :
    ('$' ∉ ("Example" : String).data ∧ '$' ∉ ("https://x.test" : String).data ∧
      ("https://x.test" : String) ≠ "") ∧
    generateContent "\x7b\x7balias\x7d\x7d: \x7b\x7burl\x7d\x7d"
      ⟨"fm", "Example", "https://x.test"⟩ =
      "---\nurl: \x22https://x.test\x22\naliases:\n  - Example\n---\nExample: https://x.test" := by
  refine ⟨⟨by decide, by decide, by decide⟩, ?_⟩
  have h := (claim8_content "\x7b\x7balias\x7d\x7d: \x7b\x7burl\x7d\x7d"
    ⟨"fm", "Example", "https://x.test"⟩ (by decide) (by decide)).1 (by decide)
  rw [h]
  decide

/-- Claim C6: when neither the selection nor the current line matches the
Markdown-link pattern, a non-empty trimmed selection falls back to an
extracted link with fullMatch = alias = trimmed selection and empty url,
and an empty trimmed selection fails with the `NoValidInput`-style
error. -/
theorem claim6_fallback (ed : EditorState)
    (hsel : findMarkdownLink ed.selection = none)
    (hline : findMarkdownLink ed.lineContent = none) :
    (String.mk (jsTrim ed.selection.data) ≠ "" →
      resolveLink ed = .ok ⟨String.mk (jsTrim ed.selection.data),
        String.mk (jsTrim ed.selection.data), ""⟩) ∧
    (String.mk (jsTrim ed.selection.data) = "" →
      resolveLink ed = .error "Select a valid text or Markdown link") := by
  have hext : extractMarkdownLink ed = none := by
    unfold extractMarkdownLink
    by_cases hse : ed.selection == ""
    · rw [if_pos hse]
      exact hline
    · rw [if_neg hse]
      exact hsel
  constructor
  · intro hne
    have hb : (String.mk (jsTrim ed.selection.data) == "") = false :=
      beq_eq_false_iff_ne.mpr hne
    simp only [resolveLink, hext, hb]
    simp
  · intro he
    have hb : (String.mk (jsTrim ed.selection.data) == "") = true := by
      simp [he]
    simp only [resolveLink, hext, hb]
    simp

theorem claim6_witness :
    (findMarkdownLink (⟨" hi ", "line", "d", ⟨0, 0⟩⟩ : EditorState).selection =
        none ∧
      findMarkdownLink (⟨" hi ", "line", "d", ⟨0, 0⟩⟩ :
        EditorState).lineContent = none ∧
      String.mk (jsTrim (" hi " : String).data) ≠ "") ∧
    resolveLink ⟨" hi ", "line", "d", ⟨0, 0⟩⟩ = .ok ⟨"hi", "hi", ""⟩ := by
  refine ⟨⟨by decide, by decide, by decide⟩, ?_⟩
  have h := (claim6_fallback ⟨" hi ", "line", "d", ⟨0, 0⟩⟩
    (by decide) (by decide)).1 (by decide)
  rw [h]
  decide

/-- Claim C5: for every input text containing a Markdown link of the form
`[alias](url)` — alias a non-empty run of non-`]` characters, url an
http/https URL (scheme case-insensitive) optionally wrapped in angle
brackets and optionally followed by whitespace before the closing
parenthesis — extraction succeeds, the returned alias and url are trimmed
(fixed points of trimming), and the returned fullMatch is a verbatim
substring of the input. -/
theorem claim5_extraction (t : String)
    (pre a w1 ang sch u cl w2 post : List Char)
    (ht : t.data = pre ++ '[' :: (a ++ ']' :: '(' ::
      (w1 ++ (ang ++ (sch ++ (u ++ (cl ++ (w2 ++ ')' :: post))))))))
    (ha : a ≠ []) (ha2 : ∀ c ∈ a, (c == ']') = false)
    (hw1 : ∀ c ∈ w1, isJsSpace c = true) (hw2 : ∀ c ∈ w2, isJsSpace c = true)
    (hang : ang = [] ∨ ang = ['<']) (hcl : cl = [] ∨ cl = ['>'])
    (hsch : SchemeShape sch) (hu : u ≠ []) (hu2 : ∀ c ∈ u, isUrlChar c = true) :
    ∃ l : ExtractedLink, findMarkdownLink t = some l ∧
      (∃ p q, t.data = p ++ l.fullMatch.data ++ q) ∧
      jsTrim l.aliasText.data = l.aliasText.data ∧
      jsTrim l.url.data = l.url.data := by
  obtain ⟨x, hm⟩ := matchAt_complete a w1 ang sch u cl w2 post ha ha2 hw1 hw2
    hang hcl hsch hu hu2
  obtain ⟨y, hf⟩ := findList_of_suffix pre _ ⟨x, hm⟩
  obtain ⟨fm, al, ur⟩ := y
  have hf2 : findMarkdownLinkList t.data = some (fm, al, ur) := by
    rw [ht]
    exact hf
  refine ⟨⟨String.mk fm, String.mk (jsTrim al), String.mk (jsTrim ur)⟩,
    ?_, ?_, ?_, ?_⟩
  · simp only [findMarkdownLink, hf2]
  · obtain ⟨p, r, hp⟩ := findList_sound _ _ _ _ hf2
    exact ⟨p, r, hp⟩
  · exact jsTrim_idem al
  · exact jsTrim_idem ur

theorem claim5_witness :
    (("[A](http://x)" : String).data = ([] : List Char) ++ '[' ::
        (['A'] ++ ']' :: '(' :: (([] : List Char) ++ (([] : List Char) ++
          (("http://" : String).data ++ (['x'] ++ (([] : List Char) ++
            (([] : List Char) ++ ')' :: ([] : List Char)))))))) ∧
      (['A'] : List Char) ≠ [] ∧ SchemeShape ("http://" : String).data) ∧
    (∃ l : ExtractedLink, findMarkdownLink "[A](http://x)" = some l ∧
      (∃ p q, ("[A](http://x)" : String).data = p ++ l.fullMatch.data ++ q) ∧
      jsTrim l.aliasText.data = l.aliasText.data ∧
      jsTrim l.url.data = l.url.data) := by
  refine ⟨⟨by decide, by decide, ?_⟩, ?_⟩
  · exact Or.inl ⟨'h', 't', 't', 'p', by decide, by decide, by decide,
      by decide, by decide⟩
  · exact claim5_extraction "[A](http://x)" [] ['A'] [] [] ("http://".data)
      ['x'] [] [] [] (by decide) (by decide) (by decide) (by decide)
      (by decide) (Or.inl rfl) (Or.inl rfl)
      (Or.inl ⟨'h', 't', 't', 'p', by decide, by decide, by decide,
        by decide, by decide⟩)
      (by decide) (by decide)

/-- Claim C3: with `vaultWideNoDuplicate` off only notes whose parent
folder equals the target folder are considered (restricting the vault to
that folder changes nothing), with it on all vault notes are considered
(the target folder is irrelevant); a note matches exactly when its
front-matter url field string-equals the candidate; a found match has its
name reused with no file created; and with the toggle off a duplicate in a
different folder does not prevent creation (a fresh invocation creates
exactly one file). -/
theorem claim3_duplicate_matching (env : Env) (url folder : String) :
    (env.settings.vaultWideNoDuplicate = false →
      findExistingFile env.settings env.vault url folder =
        findExistingFile env.settings
          (env.vault.filter (fun f => f.parentPath == folder)) url folder) ∧
    (env.settings.vaultWideNoDuplicate = true → ∀ folder2,
      findExistingFile env.settings env.vault url folder =
        findExistingFile env.settings env.vault url folder2) ∧
    (∀ m, findExistingFile env.settings env.vault url folder = some m →
      ∃ f, f ∈ env.vault ∧
        (env.settings.vaultWideNoDuplicate = true ∨ f.parentPath = folder) ∧
        matchesUrl f url = true ∧ m = ⟨f.basename, f.parentPath⟩) ∧
    (findExistingFile env.settings env.vault url folder = none →
      ∀ f ∈ env.vault,
        (env.settings.vaultWideNoDuplicate = true ∨ f.parentPath = folder) →
        matchesUrl f url = false) ∧
    (∀ link : ExtractedLink, link.url = url →
      ∀ ex, findExistingFile env.settings env.vault url folder = some ex →
      ∃ ns ed, tryBody env folder link = .ok (ns, [], ed)) ∧
    (env.settings.vaultWideNoDuplicate = false →
      (∀ f ∈ env.vault, f.parentPath = folder → matchesUrl f url = false) →
      findExistingFile env.settings env.vault url folder = none) ∧
    (∀ link : ExtractedLink, link.url = url →
      findExistingFile env.settings env.vault url folder = none →
      ∀ ns cr ed, tryBody env folder link = .ok (ns, cr, ed) →
        cr.length = 1) := by
  refine ⟨?_, ?_, fun m hm => findExistingFile_some hm,
    fun hn => findExistingFile_none hn, ?_,
    fun hvw hno => findExistingFile_none_of hvw hno, ?_⟩
  · intro hvw
    unfold findExistingFile
    simp [hvw, List.filter_filter]
  · intro hvw folder2
    unfold findExistingFile
    simp [hvw, List.filter_true]
  · intro link hlink ex hex
    rw [← hlink] at hex
    exact tryBody_existing hex
  · intro link hlink hnone
    rw [← hlink] at hnone
    exact tryBody_fresh hnone

theorem claim3_witness :
    ((⟨"x", "x", "https://u"⟩ : ExtractedLink).url = "https://u" ∧
      findExistingFile ⟨"t", false, .title, []⟩
        [⟨"n1", "f", some ⟨some "https://u"⟩⟩,
         ⟨"n2", "g", some ⟨some "https://u"⟩⟩] "https://u" "f" =
        some ⟨"n1", "f"⟩) ∧
    ∃ ns ed, tryBody
      ⟨⟨"t", false, .title, []⟩,
        [⟨"n1", "f", some ⟨some "https://u"⟩⟩,
         ⟨"n2", "g", some ⟨some "https://u"⟩⟩],
        ⟨"x", "x", "d", ⟨0, 0⟩⟩, none, "2026-10-11", fun _ => none⟩
      "f" ⟨"x", "x", "https://u"⟩ = .ok (ns, [], ed) := by
  refine ⟨⟨rfl, by decide⟩, ?_⟩
  exact (claim3_duplicate_matching
    ⟨⟨"t", false, .title, []⟩,
      [⟨"n1", "f", some ⟨some "https://u"⟩⟩,
       ⟨"n2", "g", some ⟨some "https://u"⟩⟩],
      ⟨"x", "x", "d", ⟨0, 0⟩⟩, none, "2026-10-11", fun _ => none⟩
    "https://u" "f").2.2.2.2.1 ⟨"x", "x", "https://u"⟩ rfl ⟨"n1", "f"⟩
    (by decide)

/-- Claim C1, counterexample: a plain-text invocation (empty extracted
url) in a vault holding a note whose front-matter `url` field is the
empty string finds that note as a duplicate — the lookup is attempted with
the empty url, the existing note's name is reused, and no new file is
created, contradicting "duplicate lookup is never attempted / a new note
is always created". -/
theorem claim1_counterexample :
    callback ⟨⟨"", false, .title, []⟩, [⟨"n", "f", some ⟨some ""⟩⟩],
      ⟨"hello", "hello", "x hello y", ⟨0, 2⟩⟩, none, "2026-10-11",
      fun _ => none⟩ "f" =
    ⟨.ok (), ["Pagurl:  --> f/n"], [],
      ⟨"hello", "hello", "x [[n|hello]] y", ⟨0, 2⟩⟩⟩ := by
  decide

/-- Claim C1 as amended: with an empty url the duplicate lookup is still
performed, with the empty string as the candidate; when it returns a match
that match is an in-scope note whose front-matter url field equals the
empty string and no file is created; when it returns nothing, the
invocation creates exactly one file. -/
theorem claim1_empty_url (env : Env) (folder : String) (link : ExtractedLink)
    (hurl : link.url = "") :
    (∀ ex, findExistingFile env.settings env.vault link.url folder = some ex →
      (∃ f, f ∈ env.vault ∧
        (env.settings.vaultWideNoDuplicate = true ∨ f.parentPath = folder) ∧
        matchesUrl f "" = true) ∧
      ∃ ns ed, tryBody env folder link = .ok (ns, [], ed)) ∧
    (findExistingFile env.settings env.vault link.url folder = none →
      ∀ ns cr ed, tryBody env folder link = .ok (ns, cr, ed) →
        cr.length = 1) := by
  constructor
  · intro ex hex
    constructor
    · obtain ⟨f, hf, hscope, hmatch, -⟩ := findExistingFile_some hex
      rw [hurl] at hmatch
      exact ⟨f, hf, hscope, hmatch⟩
    · exact tryBody_existing hex
  · intro hnone
    exact tryBody_fresh hnone

theorem claim1_witness :
    ((⟨"hello", "hello", ""⟩ : ExtractedLink).url = "" ∧
      findExistingFile ⟨"", false, .title, []⟩ [⟨"n", "f", some ⟨some ""⟩⟩]
        (⟨"hello", "hello", ""⟩ : ExtractedLink).url "f" = some ⟨"n", "f"⟩) ∧
    ∃ ns ed, tryBody
      ⟨⟨"", false, .title, []⟩, [⟨"n", "f", some ⟨some ""⟩⟩],
        ⟨"hello", "hello", "x hello y", ⟨0, 2⟩⟩, none, "2026-10-11",
        fun _ => none⟩ "f" ⟨"hello", "hello", ""⟩ = .ok (ns, [], ed) := by
  refine ⟨⟨rfl, by decide⟩, ?_⟩
  exact ((claim1_empty_url
    ⟨⟨"", false, .title, []⟩, [⟨"n", "f", some ⟨some ""⟩⟩],
      ⟨"hello", "hello", "x hello y", ⟨0, 2⟩⟩, none, "2026-10-11",
      fun _ => none⟩ "f" ⟨"hello", "hello", ""⟩ rfl).1 ⟨"n", "f"⟩
    (by decide)).2

/-- Claim C2, counterexample: with an empty selection and a line holding
no Markdown link, the `NoValidInput`-style error is thrown before the
`try` block — it propagates out of the callback (the outcome is the
exception) and no notification is shown, contradicting "caught at the
command boundary and surfaced as a single notification". -/
theorem claim2_counterexample :
    callback ⟨⟨"", false, .title, []⟩, [], ⟨"", "no link", "no link", ⟨0, 0⟩⟩,
      none, "2026-10-11", fun _ => none⟩ "notes" =
    ⟨.error "Select a valid text or Markdown link", [], [],
      ⟨"", "no link", "no link", ⟨0, 0⟩⟩⟩ := by
  decide

/-- Claim C2 as amended: errors raised inside the `try` block (duplicate
lookup, note generation, file creation, replacement) are caught at the
command boundary and surfaced as exactly one notification containing the
error's message, with the callback returning normally; the `NoActiveFile`
and `NoValidInput` errors are raised before the `try` block and propagate
out of the callback with no notification. -/
theorem claim2_error_boundary (env : Env) (folderArg : String) :
    (∀ e, resolveFolder env.activeFile folderArg = .error e →
      callback env folderArg = ⟨.error e, [], [], env.editor⟩) ∧
    (∀ f e, resolveFolder env.activeFile folderArg = .ok f →
      resolveLink env.editor = .error e →
      callback env folderArg = ⟨.error e, [], [], env.editor⟩) ∧
    (∀ f link e, resolveFolder env.activeFile folderArg = .ok f →
      resolveLink env.editor = .ok link → tryBody env f link = .error e →
      callback env folderArg =
        ⟨.ok (), ["Pagurl error: " ++ e], [], env.editor⟩) := by
  refine ⟨?_, ?_, ?_⟩
  · intro e he
    unfold callback
    rw [he]
  · intro f e hf he
    unfold callback
    rw [hf, he]
  · intro f link e hf hl ht
    simp only [callback, hf, hl, ht]

theorem claim2_witness :
    (resolveFolder none "f" = .ok "f" ∧
      resolveLink ⟨"n", "n", "d n d", ⟨0, 0⟩⟩ = .ok ⟨"n", "n", ""⟩ ∧
      tryBody ⟨⟨"", false, .title, []⟩, [⟨"n", "f", none⟩],
        ⟨"n", "n", "d n d", ⟨0, 0⟩⟩, none, "2026-10-11", fun _ => none⟩
        "f" ⟨"n", "n", ""⟩ = .error "File already exists.") ∧
    callback ⟨⟨"", false, .title, []⟩, [⟨"n", "f", none⟩],
      ⟨"n", "n", "d n d", ⟨0, 0⟩⟩, none, "2026-10-11", fun _ => none⟩ "f" =
    ⟨.ok (), ["Pagurl error: File already exists."], [],
      ⟨"n", "n", "d n d", ⟨0, 0⟩⟩⟩ := by
  refine ⟨⟨by decide, by decide, by decide⟩, ?_⟩
  have h := (claim2_error_boundary
    ⟨⟨"", false, .title, []⟩, [⟨"n", "f", none⟩],
      ⟨"n", "n", "d n d", ⟨0, 0⟩⟩, none, "2026-10-11", fun _ => none⟩
    "f").2.2 "f" ⟨"n", "n", ""⟩ "File already exists."
    (by decide) (by decide) (by decide)
  rw [h]
  decide

end Pagurl
